import Mathlib

/-!
# Verification of the `lock-free-mpsc` queue library

A shallow embedding of the repository's core data structures and operations,
together with proofs of the specified properties.

The embedding captures the *single-threaded* (sequential) semantics of the
code: every atomic compare-and-swap succeeds on its first attempt (there is no
interfering thread), so the CAS retry loops execute their bodies exactly once
per logical step, and the backoff spin calls have no state effect on the queue.
Machine integers (`usize`, `u32`) are modelled as `Nat` with explicit masking
(`% 2^w`, bitwise `&&&`) exactly where the source performs wrapping or masking.
Fallible operations return `Except`/`Option`; a Rust `.unwrap()` panic is
modelled by a dedicated `panicked` result constructor.

Source files embedded:
* `src/mpsc/slot.rs` — the slot state machine (`Slot::set` / `Slot::unset`);
* `src/backoff.rs` — `GlobalBackoff` spin-count computation;
* `src/backoff/local_backoff.rs` — `LocalBackoff`;
* `src/mpsc/bounded_mpsc/raw_mpsc.rs` — bounded `RawMpsc` (`new`/`push`/`pop`/`Drop`);
* `src/mpsc/bounded_mpsc/slot_arr.rs` — `SlotArr`;
* `src/mpsc/unbounded_mpsc/segment_arr.rs` — `Segment` (128 slots);
* `src/mpsc/unbounded_mpsc/raw_mpsc.rs` — unbounded segmented `RawMpsc`.
-/

namespace Mpsc

/-! ## Slot state machine (`src/mpsc/slot.rs`)

Atomic state constants, exactly as in the source. -/

def READY : Nat := 0
def RESERVED : Nat := 1
def REGISTERED : Nat := 2

/-- One storage cell: an atomic state tag plus a `MaybeUninit<T>` payload.
`value = none` models uninitialized payload memory. -/
structure Slot (α : Type) where
  state : Nat
  value : Option α
  deriving Repr, DecidableEq

/-- The default slot used for (unreachable) out-of-range array reads. -/
def dSlot {α : Type} : Slot α := ⟨READY, none⟩

/-- `Slot::set`: CAS the state from `READY` to `RESERVED`; on success write the
payload (`unchecked_set`) and store `REGISTERED`. Sequentially the net effect
is `READY → REGISTERED` with the payload stored. On CAS failure the value is
handed back as `Err(data)` and the slot is untouched. -/
def Slot.set {α : Type} (s : Slot α) (data : α) : Slot α × Except α Unit :=
  if s.state = READY then
    ({ state := REGISTERED, value := some data }, Except.ok ())
  else
    (s, Except.error data)

/-- `Slot::unset`: CAS the state from `REGISTERED` to `READY`; on success read
the payload out (`unchecked_unset`, an `assume_init_read`, which moves the
value out of the cell). The `Except.ok` payload is the cell's `MaybeUninit`
content: `some v` when it was initialized, `none` models a read of
uninitialized memory (never happens in reachable states). On CAS failure the
result is `Err(())` and the slot is untouched. -/
def Slot.unset {α : Type} (s : Slot α) : Slot α × Except Unit (Option α) :=
  if s.state = REGISTERED then
    ({ state := READY, value := none }, Except.ok s.value)
  else
    (s, Except.error ())

/-! ## Branchless wraparound mask

Both queues bound an incremented cursor with
`next & transmute::<isize,usize>(-((next < cap) as isize))`:
the mask is all-ones (`usize::MAX = 2^64 - 1`) when `next < cap` and `0`
otherwise. -/

/-- Number of value bits in `usize` (64-bit target). -/
def USIZE_BITS : Nat := 64

/-- The branchless comparison-to-mask wraparound used by bounded `push`/`pop`/
`Drop` and by `segment_push`/`segment_pop`. -/
def wrapIdx (next cap : Nat) : Nat :=
  next &&& (if next < cap then 2 ^ USIZE_BITS - 1 else 0)

/-! ## `GlobalBackoff` (`src/backoff.rs`) -/

def MAX_WAIT_SPIN : Nat := 1 <<< 18
def MIN_WAIT_SPIN : Nat := 32

/-- A `u32` left shift: Rust panics (checked builds) when the shift amount is
not below the bit width, otherwise the result wraps modulo `2^32`. -/
def u32Shl (a n : Nat) : Option Nat :=
  if n < 32 then some ((a <<< n) % 2 ^ 32) else none

/-- `GlobalBackoff::wait`: the number of `spin_loop()` iterations performed
when the shared `active_threads` counter holds `n`:
`(MIN_WAIT_SPIN << n).min(MAX_WAIT_SPIN)` in `u32` arithmetic
(`none` models the panic on an oversized shift). -/
def GlobalBackoff.waitIters (n : Nat) : Option Nat :=
  (u32Shl MIN_WAIT_SPIN n).map (fun s => min s MAX_WAIT_SPIN)

/-! ## `LocalBackoff` (`src/backoff/local_backoff.rs`) -/

def MAX_SPIN : Nat := 1 <<< 16

/-- Thread-private exponential backoff: a single `Cell<u32>` spin counter. -/
structure LocalBackoff where
  spins : Nat
  deriving Repr, DecidableEq

/-- `LocalBackoff::new`: initial spin count 0. -/
def LocalBackoff.new : LocalBackoff := ⟨0⟩

/-- `LocalBackoff::wait`: stores `(curr << 1).min(MAX_SPIN)` (u32 shift by 1,
wrapping modulo `2^32`) as the next count, then spins for the *current* count.
Returns the updated backoff and the number of iterations performed. -/
def LocalBackoff.wait (b : LocalBackoff) : LocalBackoff × Nat :=
  (⟨min ((b.spins <<< 1) % 2 ^ 32) MAX_SPIN⟩, b.spins)

/-- `LocalBackoff::reset`: sets the counter to 1. -/
def LocalBackoff.reset (_b : LocalBackoff) : LocalBackoff := ⟨1⟩

/-- Iterate `wait` `n` times, collecting the spin iteration counts performed. -/
def LocalBackoff.waitN : Nat → LocalBackoff → LocalBackoff × List Nat
  | 0, b => (b, [])
  | n + 1, b =>
    let p := b.wait
    let rest := LocalBackoff.waitN n p.1
    (rest.1, p.2 :: rest.2)

/-! ## `SlotArr` (`src/mpsc/bounded_mpsc/slot_arr.rs`)

The manually allocated slot array is a `List (Slot α)`; `capacity` is its
length. `SlotArr::set`/`unset` index the array and delegate to the slot. -/

def SlotArr.set {α : Type} (slots : List (Slot α)) (index : Nat) (data : α) :
    List (Slot α) × Except α Unit :=
  let (s', r) := (slots.getD index dSlot).set data
  (slots.set index s', r)

def SlotArr.unset {α : Type} (slots : List (Slot α)) (index : Nat) :
    List (Slot α) × Except Unit (Option α) :=
  let (s', r) := (slots.getD index dSlot).unset
  (slots.set index s', r)

/-- Result of a bounded `push`: `Ok(())`, `Err(data)` (queue full), or a panic
from the `set(..).unwrap()` call. -/
inductive PushRes (α : Type) where
  | ok : PushRes α
  | full (d : α) : PushRes α
  | panicked : PushRes α
  deriving Repr, DecidableEq

end Mpsc

namespace Mpsc.Bounded

open Mpsc

/-- The bounded MPSC queue (`src/mpsc/bounded_mpsc/raw_mpsc.rs`).
`global_wait` is the `GlobalBackoff`'s `active_threads` counter (its only
state). `slots.length` is the `SlotArr` capacity field, i.e. `capacity + 1`. -/
structure RawMpsc (α : Type) where
  next_head : Nat
  tail : Nat
  global_wait : Nat
  slots : List (Slot α)
  deriving Repr, DecidableEq

/-- `RawMpsc::new(capacity)`: allocates `capacity + 1` slots, all `READY`,
cursors at 0. -/
def RawMpsc.new (α : Type) (capacity : Nat) : RawMpsc α :=
  { next_head := 0
    tail := 0
    global_wait := 0
    slots := List.replicate (capacity + 1) dSlot }

/-- `RawMpsc::push` (sequential semantics: the CAS on `next_head` succeeds on
the first attempt, so the retry loop body runs once; `reg_wait` increments the
backoff counter and `de_reg` decrements it on every exit path). -/
def RawMpsc.push {α : Type} (q : RawMpsc α) (data : α) : RawMpsc α × PushRes α :=
  let g := q.global_wait + 1
  let curr_head := q.next_head
  let next_head_bounded := wrapIdx (curr_head + 1) q.slots.length
  if next_head_bounded ≠ q.tail then
    let (slots', r) := SlotArr.set q.slots curr_head data
    ({ next_head := next_head_bounded
       tail := q.tail
       global_wait := g - 1
       slots := slots' },
     match r with
     | Except.ok _ => PushRes.ok
     | Except.error _ => PushRes.panicked)
  else
    ({ q with global_wait := g - 1 }, PushRes.full data)

/-- `RawMpsc::pop`: result `some v?` models Rust's `Some(data)` (with `v?` the
payload read), `none` models `None` (empty queue, or the defensive
`Err(_) => None` corruption branch, which does not advance `tail`). -/
def RawMpsc.pop {α : Type} (q : RawMpsc α) : RawMpsc α × Option (Option α) :=
  if q.tail ≠ q.next_head then
    match SlotArr.unset q.slots q.tail with
    | (slots', Except.ok v) =>
      let next_tail_bounded := wrapIdx (q.tail + 1) q.slots.length
      ({ q with tail := next_tail_bounded, slots := slots' }, some v)
    | (_, Except.error _) => (q, none)
  else
    (q, none)

/-- The loop body of `impl Drop for RawMpsc`: starting at `curr = next_head`,
while `curr ≠ tail`, call `unset(curr)` (ignoring the result) and step
`curr` to `wrapIdx (curr+1)`. The Rust loop has no fuel; `fuel` bounds the
model's recursion and is chosen large enough (`slots.length + 1`) that it is
never exhausted for in-range cursors. -/
def RawMpsc.dropLoop {α : Type} (cap tl : Nat) :
    Nat → List (Slot α) → Nat → List (Slot α)
  | 0, slots, _ => slots
  | fuel + 1, slots, curr =>
    if curr = tl then slots
    else
      let next_curr := wrapIdx (curr + 1) cap
      RawMpsc.dropLoop cap tl fuel (SlotArr.unset slots curr).1 next_curr

/-- The slot array as left behind by `drop` (the queue itself is then freed). -/
def RawMpsc.dropDrain {α : Type} (q : RawMpsc α) : List (Slot α) :=
  RawMpsc.dropLoop q.slots.length q.tail (q.slots.length + 1) q.slots q.next_head

end Mpsc.Bounded

namespace Mpsc

/-- Result of a `pop` on the unbounded queue (and of `segment_pop`):
`empty` models `None`, `popped v?` models `Some(data)` with payload `v?`
(`none` = uninitialized read), `panicked` models the `.unwrap()` panic on an
unexpected slot state. -/
inductive PopRes (α : Type) where
  | empty : PopRes α
  | popped (v : Option α) : PopRes α
  | panicked : PopRes α
  deriving Repr, DecidableEq

end Mpsc

namespace Mpsc.Unbounded

open Mpsc

/-- `SEGMENT_SIZE` (`src/mpsc/unbounded_mpsc/segment_arr.rs`). -/
def SEGMENT_SIZE : Nat := 128

/-- One segment: a 128-slot ring with its own cursor pair. The intrusive
`next` pointer is represented by the position of the segment in the queue's
segment list, so it is not a field here. -/
structure Segment (α : Type) where
  next_head : Nat
  tail : Nat
  buff : List (Slot α)
  deriving Repr, DecidableEq

/-- `Segment::new()`: 128 slots, all `READY`, cursors at 0. -/
def Segment.new (α : Type) : Segment α :=
  { next_head := 0, tail := 0, buff := List.replicate SEGMENT_SIZE dSlot }

/-- `RawMpsc::segment_push` (sequential semantics: the CAS on the segment's
`next_head` succeeds on the first attempt, so the per-call `LocalBackoff` is
never consulted). On a won CAS the value is stored with
`segment.set(curr_head, data).unwrap()`, whose `Err` is a panic. -/
def segmentPush {α : Type} (s : Segment α) (data : α) : Segment α × PushRes α :=
  let curr_head := s.next_head
  let next_head := wrapIdx (curr_head + 1) SEGMENT_SIZE
  if s.tail ≠ next_head then
    let (s', r) := (s.buff.getD curr_head dSlot).set data
    ({ s with next_head := next_head, buff := s.buff.set curr_head s' },
     match r with
     | Except.ok _ => PushRes.ok
     | Except.error _ => PushRes.panicked)
  else
    (s, PushRes.full data)

/-- `RawMpsc::segment_pop`: when the segment cursors differ, advance `tail`
(with the wraparound mask) and return `Some(slot.unset().unwrap())` — the
`unwrap` panics if the slot was not `REGISTERED`. -/
def segmentPop {α : Type} (s : Segment α) : Segment α × PopRes α :=
  if s.next_head ≠ s.tail then
    let next_tail := wrapIdx (s.tail + 1) SEGMENT_SIZE
    let (sl', r) := (s.buff.getD s.tail dSlot).unset
    match r with
    | Except.ok v =>
      ({ s with tail := next_tail, buff := s.buff.set s.tail sl' }, PopRes.popped v)
    | Except.error _ =>
      ({ s with tail := next_tail, buff := s.buff.set s.tail sl' }, PopRes.panicked)
  else
    (s, PopRes.empty)

/-- The unbounded MPSC queue (`src/mpsc/unbounded_mpsc/raw_mpsc.rs`).
The singly linked chain of segments is the list `segs`: the `head` pointer is
its first element, the `tail` pointer its last, and each segment's `next`
pointer is the following list entry. -/
structure RawMpsc (α : Type) where
  segs : List (Segment α)
  segment_allocation_pending : Bool
  deriving Repr, DecidableEq

/-- `RawMpsc::new()`: one fresh segment; `head` and `tail` point at it. -/
def RawMpsc.new (α : Type) : RawMpsc α :=
  { segs := [Segment.new α], segment_allocation_pending := false }

/-- The outcome of the "winner allocates" path of `push`: the CAS on
`segment_allocation_pending` succeeded (sequentially it always does), the
caller allocated a fresh segment (`Box::into_raw(Box::new(Segment::new()))`),
linked it as the old tail's `next`, published it as the new `tail`, cleared
the flag and retried the push from the top; the retry lands on the fresh
segment. `s'` is the old (full) tail segment and `res` the retried push's
outcome on the fresh segment. -/
def allocPush {α : Type} (s' : Segment α) (res : Segment α × PushRes α) :
    Option (List (Segment α)) :=
  match res with
  | (n', PushRes.ok) => some [s', n']
  | _ => none

/-- The push retry loop over the segment chain, acting on the `tail` (last)
segment. Sequential semantics of `RawMpsc::push`'s `loop`: if `segment_push`
fails with a full segment, the caller takes the allocation path
(`allocPush` applied to the retried push into the fresh segment), which is
why one retry suffices. `none` models the panic inside `segment_push`. -/
def pushSegs {α : Type} (data : α) : List (Segment α) → Option (List (Segment α))
  | [] => none
  | [s] =>
    match segmentPush s data with
    | (s', PushRes.ok) => some [s']
    | (_, PushRes.panicked) => none
    | (s', PushRes.full d) => allocPush s' (segmentPush (Segment.new α) d)
  | s :: s₂ :: rest =>
    (pushSegs data (s₂ :: rest)).map (fun l => s :: l)

/-- `RawMpsc::push` (unbounded). If `segment_allocation_pending` were set with
no other thread to clear it, `wait_for_seg_alloc` would spin forever; that
divergence (unreachable sequentially) is also modelled by `none`. -/
def RawMpsc.push {α : Type} (q : RawMpsc α) (data : α) : Option (RawMpsc α) :=
  if q.segment_allocation_pending then none
  else (pushSegs data q.segs).map (fun l => { q with segs := l })

/-- The pop retry loop of `RawMpsc::pop`: pop from the `head` (first)
segment; if it is empty and `tail != head` (i.e. a later segment exists),
follow `next`, publish it as the new head, free the drained segment
(`Box::from_raw`) and retry. -/
def popSegs {α : Type} : List (Segment α) → List (Segment α) × PopRes α
  | [] => ([], PopRes.empty)
  | s :: rest =>
    match segmentPop s with
    | (s', PopRes.popped v) => (s' :: rest, PopRes.popped v)
    | (s', PopRes.panicked) => (s' :: rest, PopRes.panicked)
    | (s', PopRes.empty) =>
      match rest with
      | [] => ([s'], PopRes.empty)
      | s₂ :: rest' => popSegs (s₂ :: rest')

/-- `RawMpsc::pop` (unbounded). The `println!` diagnostics have no state
effect and are not modelled. -/
def RawMpsc.pop {α : Type} (q : RawMpsc α) : RawMpsc α × PopRes α :=
  ({ q with segs := (popSegs q.segs).1 }, (popSegs q.segs).2)

end Mpsc.Unbounded

namespace Mpsc

/-! ## Ring-buffer theory

Both the bounded queue (over `capacity + 1` slots) and each unbounded segment
(over `SEGMENT_SIZE` slots) are rings driven by the same cursor discipline:
`tail` is the next read position, `next_head` the next write position, the
live region is the wrapped interval `[tail, next_head)`, and a write is
refused when advancing `next_head` would collide with `tail`. The lemmas here
are shared between the two queues. -/

/-- Wrapped distance from cursor `a` to cursor `b` in a ring of `cap` slots. -/
def wdist (cap a b : Nat) : Nat := (b + cap - a) % cap

/-- The live contents of a ring, oldest first: the slot values at wrapped
positions `tail, tail+1, …, next_head - 1`. -/
def ringVals {α : Type} (cap : Nat) (slots : List (Slot α)) (t h : Nat) :
    List (Option α) :=
  (List.range (wdist cap t h)).map (fun k => (slots.getD ((t + k) % cap) dSlot).value)

/-- The ring invariant maintained by the cursor discipline: cursors in range,
the wrapped region `[t, h)` holds `REGISTERED` slots with initialized payloads
and every other slot is `READY`. -/
structure RInv {α : Type} (cap : Nat) (slots : List (Slot α)) (t h : Nat) : Prop where
  capPos : 0 < cap
  capLe : cap ≤ 2 ^ USIZE_BITS
  len : slots.length = cap
  tlt : t < cap
  hlt : h < cap
  live : ∀ k, k < wdist cap t h →
    (slots.getD ((t + k) % cap) dSlot).state = REGISTERED ∧
    ((slots.getD ((t + k) % cap) dSlot).value).isSome
  dead : ∀ k, wdist cap t h ≤ k → k < cap →
    (slots.getD ((t + k) % cap) dSlot).state = READY

theorem getD_set_self {α : Type} (l : List α) (i : Nat) (a d : α)
    (h : i < l.length) : (l.set i a).getD i d = a := by
  rw [List.getD_eq_getElem _ _ (by simpa using h)]
  exact List.getElem_set_self _

theorem getD_set_ne {α : Type} (l : List α) {i j : Nat} (a d : α)
    (hne : i ≠ j) : (l.set i a).getD j d = l.getD j d := by
  by_cases hj : j < l.length
  · rw [List.getD_eq_getElem _ _ (by simpa using hj), List.getD_eq_getElem _ _ hj]
    exact List.getElem_set_ne hne _
  · rw [List.getD_eq_default _ _ (by simpa using Nat.le_of_not_lt hj),
      List.getD_eq_default _ _ (Nat.le_of_not_lt hj)]

theorem wdist_lt {cap : Nat} (hpos : 0 < cap) (a b : Nat) : wdist cap a b < cap :=
  Nat.mod_lt _ hpos

theorem wdist_self (cap a : Nat) : wdist cap a a = 0 := by
  unfold wdist
  rw [Nat.add_sub_cancel_left]
  exact Nat.mod_self cap

/-- Recover `next_head` from `tail` plus the live size. -/
theorem add_wdist_mod {cap t h : Nat} (ht : t < cap) (hh : h < cap) :
    (t + wdist cap t h) % cap = h := by
  unfold wdist
  have e1 : (t + (h + cap - t) % cap) % cap = (t + (h + cap - t)) % cap :=
    (Nat.ModEq.add_left t (Nat.mod_modEq (h + cap - t) cap))
  have e2 : t + (h + cap - t) = h + cap := by omega
  rw [e1, e2, Nat.add_mod_right, Nat.mod_eq_of_lt hh]

/-- The size of the region `[t, (t + sz) % cap)` is `sz` itself. -/
theorem wdist_add {cap t sz : Nat} (ht : t < cap) (hsz : sz < cap) :
    wdist cap t ((t + sz) % cap) = sz := by
  have hpos : 0 < cap := by omega
  set m := (t + sz) % cap with hm
  have hmlt : m < cap := Nat.mod_lt _ hpos
  have h1 : m + cap - t + t = m + cap := by omega
  have h2 : (m + cap - t + t) % cap = (sz + t) % cap := by
    rw [h1, Nat.add_mod_right, Nat.mod_eq_of_lt hmlt, hm, Nat.add_comm t sz]
  have h3 : m + cap - t ≡ sz [MOD cap] := Nat.ModEq.add_right_cancel' t h2
  unfold wdist
  rw [h3, Nat.mod_eq_of_lt hsz]

/-- Offsets below `cap` are uniquely determined by their wrapped position. -/
theorem mod_add_inj {cap t k₁ k₂ : Nat} (h₁ : k₁ < cap) (h₂ : k₂ < cap)
    (he : (t + k₁) % cap = (t + k₂) % cap) : k₁ = k₂ := by
  have h3 : k₁ ≡ k₂ [MOD cap] := Nat.ModEq.add_left_cancel' t he
  have := h3
  unfold Nat.ModEq at this
  rwa [Nat.mod_eq_of_lt h₁, Nat.mod_eq_of_lt h₂] at this

/-- Under the ring invariant, the live region is empty iff the cursors
coincide. -/
theorem wdist_eq_zero_iff {α : Type} {cap : Nat} {slots : List (Slot α)}
    {t h : Nat} (inv : RInv cap slots t h) : wdist cap t h = 0 ↔ t = h := by
  constructor
  · intro h0
    have hh := add_wdist_mod inv.tlt inv.hlt
    rw [h0, Nat.add_zero, Nat.mod_eq_of_lt inv.tlt] at hh
    exact hh
  · intro he
    rw [he, wdist_self]

/-- The branchless mask agrees with `% cap` on every index the queues feed it
(an incremented in-range cursor, hence `≤ cap`), for any capacity expressible
in `usize`. -/
theorem wrapIdx_eq_mod {next cap : Nat} (hle : next ≤ cap)
    (hcap : cap ≤ 2 ^ USIZE_BITS) : wrapIdx next cap = next % cap := by
  unfold wrapIdx
  by_cases h : next < cap
  · rw [if_pos h, Nat.and_pow_two_sub_one_eq_mod,
      Nat.mod_eq_of_lt (Nat.lt_of_lt_of_le h hcap), Nat.mod_eq_of_lt h]
  · have : next = cap := Nat.le_antisymm hle (Nat.le_of_not_lt h)
    rw [if_neg h, Nat.and_zero, this, Nat.mod_self]

/-- A fresh all-`READY` ring satisfies the invariant with empty contents. -/
theorem rinv_new {α : Type} (cap : Nat) (hpos : 0 < cap)
    (hle : cap ≤ 2 ^ USIZE_BITS) :
    RInv cap (List.replicate cap (dSlot (α := α))) 0 0 ∧
    ringVals cap (List.replicate cap (dSlot (α := α))) 0 0 = [] := by
  have hget : ∀ i : Nat, (List.replicate cap (dSlot (α := α))).getD i dSlot = dSlot := by
    intro i
    by_cases h : i < cap
    · rw [List.getD_eq_getElem _ _ (by simpa using h)]
      exact List.getElem_replicate _ _
    · exact List.getD_eq_default _ _ (by simpa using Nat.le_of_not_lt h)
  constructor
  · refine ⟨hpos, hle, List.length_replicate _ _, hpos, hpos, ?_, ?_⟩
    · intro k hk
      rw [wdist_self] at hk
      exact absurd hk (Nat.not_lt_zero k)
    · intro k _ _
      rw [hget]
      rfl
  · unfold ringVals
    rw [wdist_self]
    rfl

/-- Adding inside a completed `% cap` does not change the residue. -/
theorem mod_add_mod_right (cap x y : Nat) : (x % cap + y) % cap = (x + y) % cap :=
  Nat.ModEq.add_right y (Nat.mod_modEq x cap)

/-- A write at `next_head` while the ring is not full: the `Slot::set`
succeeds, the live size grows by one, the invariant is preserved, and the new
value is appended at the end of the ring's contents. -/
theorem ring_push {α : Type} {cap : Nat} {slots : List (Slot α)} {t h : Nat}
    (inv : RInv cap slots t h) (v : α) (hnf : wrapIdx (h + 1) cap ≠ t) :
    (slots.getD h dSlot).set v
      = ({ state := REGISTERED, value := some v }, Except.ok ()) ∧
    SlotArr.set slots h v
      = (slots.set h { state := REGISTERED, value := some v }, Except.ok ()) ∧
    wdist cap t (wrapIdx (h + 1) cap) = wdist cap t h + 1 ∧
    RInv cap (slots.set h { state := REGISTERED, value := some v }) t
      (wrapIdx (h + 1) cap) ∧
    ringVals cap (slots.set h { state := REGISTERED, value := some v }) t
      (wrapIdx (h + 1) cap)
      = ringVals cap slots t h ++ [some v] := by
  obtain ⟨hpos, hle, hlen, htl, hhl, hlive, hdead⟩ := inv
  have hszlt : wdist cap t h < cap := wdist_lt hpos t h
  have hh : (t + wdist cap t h) % cap = h := add_wdist_mod htl hhl
  have e2 : wrapIdx (h + 1) cap = (t + (wdist cap t h + 1)) % cap := by
    rw [wrapIdx_eq_mod (by omega) hle]
    conv_lhs => rw [← hh]
    rw [mod_add_mod_right cap (t + wdist cap t h) 1, Nat.add_assoc]
  have hsz1 : wdist cap t h + 1 < cap := by
    rcases Nat.lt_or_ge (wdist cap t h + 1) cap with hlt | hge
    · exact hlt
    · exfalso
      have hc : wdist cap t h + 1 = cap := by omega
      apply hnf
      rw [e2, hc, Nat.add_mod_right, Nat.mod_eq_of_lt htl]
  have hwd : wdist cap t ((t + (wdist cap t h + 1)) % cap) = wdist cap t h + 1 :=
    wdist_add htl hsz1
  have hslot : (slots.getD h dSlot).state = READY := by
    have hd := hdead (wdist cap t h) (Nat.le_refl _) hszlt
    rwa [hh] at hd
  have hset : (slots.getD h dSlot).set v
      = ({ state := REGISTERED, value := some v }, Except.ok ()) := by
    unfold Slot.set
    rw [if_pos hslot]
  have harr : SlotArr.set slots h v
      = (slots.set h { state := REGISTERED, value := some v }, Except.ok ()) := by
    unfold SlotArr.set
    rw [hset]
  have hne_idx : ∀ k, k < cap → k ≠ wdist cap t h → (t + k) % cap ≠ h := by
    intro k hk hks heq
    rw [← hh] at heq
    exact hks (mod_add_inj hk hszlt heq)
  refine ⟨hset, harr, ?_, ?_, ?_⟩
  · rw [e2, hwd]
  · rw [e2]
    refine ⟨hpos, hle, ?_, htl, Nat.mod_lt _ hpos, ?_, ?_⟩
    · rw [List.length_set]
      exact hlen
    · intro k hk
      rw [hwd] at hk
      by_cases hks : k = wdist cap t h
      · subst hks
        rw [hh, getD_set_self _ _ _ _ (by rw [hlen]; exact hhl)]
        exact ⟨rfl, rfl⟩
      · rw [getD_set_ne _ _ _ (fun he => (hne_idx k (by omega) hks) he.symm)]
        exact hlive k (by omega)
    · intro k hk1 hk2
      rw [hwd] at hk1
      have hks : k ≠ wdist cap t h := by omega
      rw [getD_set_ne _ _ _ (fun he => (hne_idx k hk2 hks) he.symm)]
      exact hdead k (by omega) hk2
  · rw [e2]
    unfold ringVals
    rw [hwd, List.range_succ, List.map_append]
    congr 1
    · apply List.map_congr_left
      intro k hk
      rw [List.mem_range] at hk
      rw [getD_set_ne _ _ _ (fun he => (hne_idx k (by omega) (by omega)) he.symm)]
    · simp only [List.map_cons, List.map_nil]
      rw [hh, getD_set_self _ _ _ _ (by rw [hlen]; exact hhl)]

/-- The write-refusal test `wrapIdx (h+1) = t` fires exactly on a ring whose
live region has reached its maximum size `cap - 1`. -/
theorem ring_full_iff {α : Type} {cap : Nat} {slots : List (Slot α)} {t h : Nat}
    (inv : RInv cap slots t h) :
    wrapIdx (h + 1) cap = t ↔ wdist cap t h = cap - 1 := by
  obtain ⟨hpos, hle, _, htl, hhl, _, _⟩ := inv
  have hszlt : wdist cap t h < cap := wdist_lt hpos t h
  have hh : (t + wdist cap t h) % cap = h := add_wdist_mod htl hhl
  have e2 : wrapIdx (h + 1) cap = (t + (wdist cap t h + 1)) % cap := by
    rw [wrapIdx_eq_mod (by omega) hle]
    conv_lhs => rw [← hh]
    rw [mod_add_mod_right cap (t + wdist cap t h) 1, Nat.add_assoc]
  constructor
  · intro hfull
    by_contra hcne
    have hlt : wdist cap t h + 1 < cap := by omega
    have hw := wdist_add htl hlt
    rw [← e2, hfull, wdist_self] at hw
    omega
  · intro heq
    rw [e2, heq]
    have hc : cap - 1 + 1 = cap := by omega
    rw [hc, Nat.add_mod_right, Nat.mod_eq_of_lt htl]

/-- A read at `tail` from a nonempty ring: the slot holds a value `v`, the
`Slot::unset` succeeds, the live size shrinks by one, the invariant is
preserved for the advanced tail, and the ring's contents lose their head. -/
theorem ring_pop {α : Type} {cap : Nat} {slots : List (Slot α)} {t h : Nat}
    (inv : RInv cap slots t h) (hne : t ≠ h) :
    ∃ v : α, (slots.getD t dSlot).value = some v ∧
      (slots.getD t dSlot).unset
        = ({ state := READY, value := none }, Except.ok (some v)) ∧
      SlotArr.unset slots t
        = (slots.set t { state := READY, value := none }, Except.ok (some v)) ∧
      wdist cap (wrapIdx (t + 1) cap) h = wdist cap t h - 1 ∧
      RInv cap (slots.set t { state := READY, value := none }) (wrapIdx (t + 1) cap) h ∧
      ringVals cap slots t h
        = some v :: ringVals cap (slots.set t { state := READY, value := none })
            (wrapIdx (t + 1) cap) h := by
  obtain ⟨hpos, hle, hlen, htl, hhl, hlive, hdead⟩ := inv
  have hszlt : wdist cap t h < cap := wdist_lt hpos t h
  have hh : (t + wdist cap t h) % cap = h := add_wdist_mod htl hhl
  have hszpos : 0 < wdist cap t h := by
    rcases Nat.eq_zero_or_pos (wdist cap t h) with h0 | hp
    · exfalso
      apply hne
      rw [h0, Nat.add_zero, Nat.mod_eq_of_lt htl] at hh
      exact hh
    · exact hp
  have hl0 := hlive 0 hszpos
  rw [Nat.add_zero, Nat.mod_eq_of_lt htl] at hl0
  obtain ⟨hst, hvs⟩ := hl0
  obtain ⟨v, hv⟩ := Option.isSome_iff_exists.mp hvs
  have et : wrapIdx (t + 1) cap = (t + 1) % cap := wrapIdx_eq_mod (by omega) hle
  have htl' : (t + 1) % cap < cap := Nat.mod_lt _ hpos
  have hh' : ((t + 1) % cap + (wdist cap t h - 1)) % cap = h := by
    rw [mod_add_mod_right]
    have e : t + 1 + (wdist cap t h - 1) = t + wdist cap t h := by omega
    rw [e, hh]
  have hwd' : wdist cap ((t + 1) % cap) h = wdist cap t h - 1 := by
    conv_lhs => rw [← hh']
    exact wdist_add htl' (by omega)
  have hunset : (slots.getD t dSlot).unset
      = ({ state := READY, value := none }, Except.ok (some v)) := by
    unfold Slot.unset
    rw [if_pos hst, hv]
  have harr : SlotArr.unset slots t
      = (slots.set t { state := READY, value := none }, Except.ok (some v)) := by
    unfold SlotArr.unset
    rw [hunset]
  have hne_idx : ∀ k, k + 1 < cap → (t + (k + 1)) % cap ≠ t := by
    intro k hk heq
    have heq' : (t + (k + 1)) % cap = (t + 0) % cap := by
      conv_rhs => rw [Nat.add_zero]
      rw [Nat.mod_eq_of_lt htl]
      exact heq
    exact Nat.succ_ne_zero k (mod_add_inj hk hpos heq')
  have hshift : ∀ k, ((t + 1) % cap + k) % cap = (t + (k + 1)) % cap := by
    intro k
    rw [mod_add_mod_right]
    congr 1
    omega
  refine ⟨v, hv, hunset, harr, ?_, ?_, ?_⟩
  · rw [et]
    exact hwd'
  · rw [et]
    refine ⟨hpos, hle, ?_, htl', hhl, ?_, ?_⟩
    · rw [List.length_set]
      exact hlen
    · intro k hk
      rw [hwd'] at hk
      rw [hshift k]
      have hk1 : k + 1 < cap := by omega
      rw [getD_set_ne _ _ _ (fun he => hne_idx k hk1 he.symm)]
      exact hlive (k + 1) (by omega)
    · intro k hk1 hk2
      rw [hwd'] at hk1
      rw [hshift k]
      by_cases hkc : k + 1 = cap
      · have e : (t + (k + 1)) % cap = t := by
          rw [hkc, Nat.add_mod_right, Nat.mod_eq_of_lt htl]
        rw [e, getD_set_self _ _ _ _ (by rw [hlen]; exact htl)]
      · have hk1c : k + 1 < cap := by omega
        rw [getD_set_ne _ _ _ (fun he => hne_idx k hk1c he.symm)]
        exact hdead (k + 1) (by omega) hk1c
  · unfold ringVals
    rw [et, hwd']
    have hd : wdist cap t h = (wdist cap t h - 1) + 1 := by omega
    conv_lhs => rw [hd]
    rw [List.range_succ_eq_map, List.map_cons]
    congr 1
    · rw [Nat.add_zero, Nat.mod_eq_of_lt htl, hv]
    · rw [List.map_map]
      apply List.map_congr_left
      intro k hk
      rw [List.mem_range] at hk
      simp only [Function.comp, Nat.succ_eq_add_one]
      rw [hshift k]
      have hk1 : k + 1 < cap := by omega
      rw [getD_set_ne _ _ _ (fun he => hne_idx k hk1 he.symm)]

-- development sanity checks for the ring lemmas
example : wdist 5 3 1 = 3 := by decide
example : wdist 5 3 3 = 0 := by decide
example : wrapIdx 5 5 = 0 := by decide
example : wrapIdx 4 5 = 4 := by decide

end Mpsc

namespace Mpsc.Bounded

open Mpsc

/-! ### Refinement of the bounded queue to a list -/

/-- Abstraction function: the queue's live contents, oldest first. -/
def RawMpsc.toList {α : Type} (q : RawMpsc α) : List (Option α) :=
  ringVals q.slots.length q.slots q.tail q.next_head

/-- The bounded queue invariant: the ring invariant over its slot array. -/
abbrev BInv {α : Type} (q : RawMpsc α) : Prop :=
  RInv q.slots.length q.slots q.tail q.next_head

theorem toList_length {α : Type} (q : RawMpsc α) :
    q.toList.length = wdist q.slots.length q.tail q.next_head := by
  unfold RawMpsc.toList ringVals
  rw [List.length_map, List.length_range]

theorem binv_new {α : Type} (capacity : Nat)
    (hcap : capacity + 1 ≤ 2 ^ USIZE_BITS) :
    BInv (RawMpsc.new α capacity) ∧ (RawMpsc.new α capacity).toList = []
      ∧ (RawMpsc.new α capacity).slots.length = capacity + 1 := by
  have h := rinv_new (α := α) (capacity + 1) (Nat.succ_pos _) hcap
  unfold BInv RawMpsc.toList RawMpsc.new
  simp only [List.length_replicate]
  exact ⟨h.1, h.2, trivial⟩

/-- A push on a non-full queue: the CAS wins, the slot write succeeds, and the
value is appended to the queue's contents. -/
theorem push_not_full {α : Type} {q : RawMpsc α} (inv : BInv q) (v : α)
    (hnf : wrapIdx (q.next_head + 1) q.slots.length ≠ q.tail) :
    (q.push v).2 = PushRes.ok ∧ BInv (q.push v).1 ∧
    (q.push v).1.toList = q.toList ++ [some v] ∧
    (q.push v).1.slots.length = q.slots.length ∧
    (q.push v).1.tail = q.tail ∧
    (q.push v).1.next_head = wrapIdx (q.next_head + 1) q.slots.length ∧
    (q.push v).1.global_wait = q.global_wait := by
  obtain ⟨_, harr, hwd, hinv, hvals⟩ := ring_push inv v hnf
  have hpush : q.push v
      = ({ next_head := wrapIdx (q.next_head + 1) q.slots.length
           tail := q.tail
           global_wait := q.global_wait + 1 - 1
           slots := q.slots.set q.next_head { state := REGISTERED, value := some v } },
         PushRes.ok) := by
    unfold RawMpsc.push
    rw [if_pos hnf, harr]
  rw [hpush]
  have hlen : (q.slots.set q.next_head
      { state := REGISTERED, value := some v }).length = q.slots.length :=
    List.length_set q.slots _ _
  refine ⟨rfl, ?_, ?_, hlen, rfl, rfl, rfl⟩
  · unfold BInv
    simp only [hlen]
    exact hinv
  · unfold RawMpsc.toList
    simp only [hlen]
    exact hvals

/-- A push on a full queue fails with `Err(data)` and restores the state
(including the backoff registration, which is undone by `de_reg`). This holds
for every state, not only reachable ones. -/
theorem push_full_state {α : Type} (q : RawMpsc α) (v : α)
    (hf : wrapIdx (q.next_head + 1) q.slots.length = q.tail) :
    q.push v = (q, PushRes.full v) := by
  unfold RawMpsc.push
  rw [if_neg (by simpa using hf)]
  rfl

/-- A pop on an empty queue returns `None` and leaves the state unchanged. -/
theorem pop_empty {α : Type} (q : RawMpsc α) (he : q.tail = q.next_head) :
    q.pop = (q, none) := by
  unfold RawMpsc.pop
  rw [if_neg (fun hc => hc he)]

/-- A pop on a nonempty queue: the tail slot holds a value, the `unset`
succeeds, the tail advances, and the oldest element is removed. -/
theorem pop_cons {α : Type} {q : RawMpsc α} (inv : BInv q)
    (hne : q.tail ≠ q.next_head) :
    ∃ v : α,
      q.pop = ({ q with
                   tail := wrapIdx (q.tail + 1) q.slots.length
                   slots := q.slots.set q.tail { state := READY, value := none } },
               some (some v)) ∧
      BInv (q.pop).1 ∧ q.toList = some v :: (q.pop).1.toList ∧
      (q.pop).1.slots.length = q.slots.length ∧
      (q.pop).1.next_head = q.next_head := by
  obtain ⟨v, hv, _, harr, hwd, hinv, hvals⟩ := ring_pop inv hne
  have hpop : q.pop
      = ({ q with
             tail := wrapIdx (q.tail + 1) q.slots.length
             slots := q.slots.set q.tail { state := READY, value := none } },
         some (some v)) := by
    unfold RawMpsc.pop
    rw [if_pos hne, harr]
  have hlen : (q.slots.set q.tail
      { state := READY, value := none }).length = q.slots.length :=
    List.length_set q.slots _ _
  refine ⟨v, hpop, ?_, ?_, ?_, ?_⟩
  · rw [hpop]
    unfold BInv
    simp only [hlen]
    exact hinv
  · rw [hpop]
    unfold RawMpsc.toList
    simp only [hlen]
    exact hvals
  · rw [hpop]
    exact hlen
  · rw [hpop]

/-- Reachable states of a bounded queue of the given capacity under arbitrary
(sequential) sequences of `push` and `pop`. -/
inductive Reach (α : Type) (capacity : Nat) : RawMpsc α → Prop where
  | init : Reach α capacity (RawMpsc.new α capacity)
  | push (q : RawMpsc α) (v : α) :
      Reach α capacity q → Reach α capacity (q.push v).1
  | pop (q : RawMpsc α) : Reach α capacity q → Reach α capacity (q.pop).1

/-- The ring invariant holds in every reachable state. -/
theorem reach_binv {α : Type} {capacity : Nat}
    (hcap : capacity + 1 ≤ 2 ^ USIZE_BITS) {q : RawMpsc α}
    (hr : Reach α capacity q) : BInv q := by
  induction hr with
  | init => exact (binv_new capacity hcap).1
  | push q v _ ih =>
    by_cases hf : wrapIdx (q.next_head + 1) q.slots.length = q.tail
    · rw [push_full_state q v hf]
      exact ih
    · exact (push_not_full ih v hf).2.1
  | pop q _ ih =>
    by_cases he : q.tail = q.next_head
    · rw [pop_empty q he]
      exact ih
    · obtain ⟨v, _, hinv, _, _, _⟩ := pop_cons ih he
      exact hinv

/-- Under the invariant, `pop` answers `None` exactly on coinciding cursors. -/
theorem pop_none_iff {α : Type} {q : RawMpsc α} (inv : BInv q) :
    (q.pop).2 = none ↔ q.next_head = q.tail := by
  constructor
  · intro hp
    by_contra hne
    obtain ⟨v, hpop, _, _, _, _⟩ := pop_cons inv (fun he => hne he.symm)
    rw [hpop] at hp
    simp at hp
  · intro he
    rw [pop_empty q he.symm]

/-- Push a whole list, stopping at the first non-`Ok` result. -/
def pushList {α : Type} : List α → RawMpsc α → Option (RawMpsc α)
  | [], q => some q
  | v :: l, q =>
    match q.push v with
    | (q', PushRes.ok) => pushList l q'
    | _ => none

/-- Pop `n` times, collecting the results in order. -/
def pops {α : Type} : Nat → RawMpsc α → RawMpsc α × List (Option (Option α))
  | 0, q => (q, [])
  | n + 1, q =>
    let p := q.pop
    let rest := pops n p.1
    (rest.1, p.2 :: rest.2)

theorem pops_succ {α : Type} (q : RawMpsc α) (n : Nat) :
    pops (n + 1) q = ((pops n (q.pop).1).1, (q.pop).2 :: (pops n (q.pop).1).2) :=
  rfl

/-- Pushing a list into a queue with enough room appends it to the contents. -/
theorem pushList_ok {α : Type} :
    ∀ (l : List α) (q : RawMpsc α), BInv q →
      q.toList.length + l.length + 1 ≤ q.slots.length →
      ∃ q', pushList l q = some q' ∧ BInv q' ∧
        q'.toList = q.toList ++ l.map some ∧
        q'.slots.length = q.slots.length := by
  intro l
  induction l with
  | nil =>
    intro q inv _
    exact ⟨q, rfl, inv, by simp, rfl⟩
  | cons v l ih =>
    intro q inv hlen
    simp only [List.length_cons] at hlen
    have hsz := toList_length q
    have hnf : wrapIdx (q.next_head + 1) q.slots.length ≠ q.tail := by
      intro hf
      have hw := (ring_full_iff inv).mp hf
      omega
    obtain ⟨hres, hinv1, hlist1, hlen1, _, _, _⟩ := push_not_full inv v hnf
    rcases hp : q.push v with ⟨q1, r⟩
    rw [hp] at hres hinv1 hlist1 hlen1
    simp only [] at hres hinv1 hlist1 hlen1
    subst hres
    have hstep : pushList (v :: l) q = pushList l q1 := by
      simp only [pushList, hp]
    have hlen2 : q1.toList.length + l.length + 1 ≤ q1.slots.length := by
      rw [hlen1, hlist1]
      simp only [List.length_append, List.length_cons, List.length_nil]
      omega
    obtain ⟨q', hq', hinv', hlist', hlen'⟩ := ih q1 hinv1 hlen2
    refine ⟨q', by rw [hstep]; exact hq', hinv', ?_, by rw [hlen', hlen1]⟩
    rw [hlist', hlist1]
    simp

/-- Draining a queue whose contents are `l` with `l.length + 1` pops returns
each element of `l` in order, wrapped in `Some`, followed by one `None`. -/
theorem pops_drain {α : Type} :
    ∀ (l : List (Option α)) (q : RawMpsc α), BInv q → q.toList = l →
      (pops (l.length + 1) q).2 = l.map some ++ [none] := by
  intro l
  induction l with
  | nil =>
    intro q inv h0
    have htail : q.tail = q.next_head := by
      apply (wdist_eq_zero_iff inv).mp
      have hsz := toList_length q
      rw [h0] at hsz
      simpa using hsz.symm
    simp only [List.length_nil, List.map_nil, List.nil_append]
    rw [pops_succ, pop_empty q htail]
    rfl
  | cons x l ih =>
    intro q inv hl
    have hne : q.tail ≠ q.next_head := by
      intro he
      have h0 := (wdist_eq_zero_iff inv).mpr he
      have hsz := toList_length q
      rw [hl] at hsz
      simp only [List.length_cons] at hsz
      omega
    obtain ⟨v, hpop, hinv1, hlist1, _, _⟩ := pop_cons inv hne
    rw [hl] at hlist1
    injection hlist1 with hx hrest
    simp only [List.length_cons]
    rw [pops_succ]
    simp only [List.map_cons, List.cons_append]
    have h2 : (q.pop).2 = some (some v) := by rw [hpop]
    rw [h2, hx]
    congr 1
    exact ih (q.pop).1 hinv1 hrest.symm

/-- Every reachable state keeps the slot-array length of `new`. -/
theorem reach_len {α : Type} {capacity : Nat} {q : RawMpsc α}
    (hr : Reach α capacity q) : q.slots.length = capacity + 1 := by
  induction hr with
  | init =>
    unfold RawMpsc.new
    exact List.length_replicate _ _
  | push q v _ ih =>
    unfold RawMpsc.push
    by_cases hnf : wrapIdx (q.next_head + 1) q.slots.length ≠ q.tail
    · rw [if_pos hnf]
      rcases hp : SlotArr.set q.slots q.next_head v with ⟨slots', r⟩
      have : slots'.length = q.slots.length := by
        have : slots' = (SlotArr.set q.slots q.next_head v).1 := by rw [hp]
        rw [this]
        unfold SlotArr.set
        exact List.length_set q.slots _ _
      cases r <;> simp only [] <;> rw [this] <;> exact ih
    · rw [if_neg hnf]
      exact ih
  | pop q _ ih =>
    unfold RawMpsc.pop
    by_cases hne : q.tail ≠ q.next_head
    · rw [if_pos hne]
      rcases hp : SlotArr.unset q.slots q.tail with ⟨slots', r⟩
      have hsl : slots'.length = q.slots.length := by
        have he : slots' = (SlotArr.unset q.slots q.tail).1 := by rw [hp]
        rw [he]
        unfold SlotArr.unset
        exact List.length_set q.slots _ _
      cases r <;> simp only [] <;> first | (rw [hsl]; exact ih) | exact ih
    · rw [if_neg hne]
      exact ih

end Mpsc.Bounded

namespace Mpsc.Unbounded

open Mpsc

/-! ### Refinement of the unbounded queue to a list -/

/-- The live contents of one segment, oldest first. -/
def Segment.toList {α : Type} (s : Segment α) : List (Option α) :=
  ringVals SEGMENT_SIZE s.buff s.tail s.next_head

/-- The segment invariant: the shared ring invariant at `cap = SEGMENT_SIZE`. -/
abbrev SInv {α : Type} (s : Segment α) : Prop :=
  RInv SEGMENT_SIZE s.buff s.tail s.next_head

/-- The whole queue's contents: the segment chain's contents, head first. -/
def RawMpsc.toList {α : Type} (q : RawMpsc α) : List (Option α) :=
  (q.segs.map Segment.toList).flatten

/-- The unbounded queue invariant: at least one live segment, no allocation in
flight, and every segment satisfies the ring invariant. -/
def UInv {α : Type} (q : RawMpsc α) : Prop :=
  q.segs ≠ [] ∧ q.segment_allocation_pending = false ∧ ∀ s ∈ q.segs, SInv s

/-- The full test of a segment, as `segment_push` computes it. -/
def segFull {α : Type} (s : Segment α) : Prop :=
  s.tail = wrapIdx (s.next_head + 1) SEGMENT_SIZE

/-- Whether the `tail` (last) segment of the chain is full. -/
def lastSegFull {α : Type} (segs : List (Segment α)) : Prop :=
  match segs.getLast? with
  | some s => segFull s
  | none => False

theorem sinv_new (α : Type) :
    SInv (Segment.new α) ∧ (Segment.new α).toList = [] := by
  have h128 : (0 : Nat) < SEGMENT_SIZE := by decide
  have hle : SEGMENT_SIZE ≤ 2 ^ USIZE_BITS := by decide
  exact rinv_new SEGMENT_SIZE h128 hle

theorem segment_toList_empty {α : Type} (s : Segment α)
    (he : s.next_head = s.tail) : s.toList = [] := by
  unfold Segment.toList ringVals
  rw [he, wdist_self]
  rfl

/-- `segment_push` on a non-full segment stores the value at `next_head` and
appends it to the segment's contents. -/
theorem segmentPush_not_full {α : Type} {s : Segment α} (inv : SInv s) (v : α)
    (hnf : s.tail ≠ wrapIdx (s.next_head + 1) SEGMENT_SIZE) :
    segmentPush s v
      = ({ s with
             next_head := wrapIdx (s.next_head + 1) SEGMENT_SIZE
             buff := s.buff.set s.next_head
               { state := REGISTERED, value := some v } },
         PushRes.ok) ∧
    SInv (segmentPush s v).1 ∧
    (segmentPush s v).1.toList = s.toList ++ [some v] := by
  obtain ⟨hslot, _, _, hinv, hvals⟩ := ring_push inv v (fun he => hnf he.symm)
  have hpush : segmentPush s v
      = ({ s with
             next_head := wrapIdx (s.next_head + 1) SEGMENT_SIZE
             buff := s.buff.set s.next_head
               { state := REGISTERED, value := some v } },
         PushRes.ok) := by
    unfold segmentPush
    rw [if_pos hnf, hslot]
  refine ⟨hpush, ?_, ?_⟩
  · rw [hpush]
    exact hinv
  · rw [hpush]
    exact hvals

/-- `segment_push` on a full segment hands the value back untouched. -/
theorem segmentPush_full {α : Type} (s : Segment α) (v : α)
    (hf : s.tail = wrapIdx (s.next_head + 1) SEGMENT_SIZE) :
    segmentPush s v = (s, PushRes.full v) := by
  unfold segmentPush
  rw [if_neg (by simpa using hf)]

/-- A freshly allocated segment accepts a push (this is why the allocating
producer's retry after linking a new segment always succeeds). -/
theorem segmentPush_fresh {α : Type} (v : α) :
    ∃ fresh' : Segment α, segmentPush (Segment.new α) v = (fresh', PushRes.ok) ∧
      SInv fresh' ∧ fresh'.toList = [some v] := by
  have hnf : (Segment.new α).tail
      ≠ wrapIdx ((Segment.new α).next_head + 1) SEGMENT_SIZE := by
    show (0 : Nat) ≠ wrapIdx (0 + 1) SEGMENT_SIZE
    decide
  obtain ⟨hpush, hinv, hvals⟩ := segmentPush_not_full (sinv_new α).1 v hnf
  refine ⟨(segmentPush (Segment.new α) v).1, ?_, hinv, ?_⟩
  · rw [hpush]
  · rw [hvals, (sinv_new α).2]
    rfl

/-- `segment_pop` on a segment with equal cursors reports it empty. -/
theorem segmentPop_empty {α : Type} (s : Segment α)
    (he : s.next_head = s.tail) : segmentPop s = (s, PopRes.empty) := by
  unfold segmentPop
  rw [if_neg (by simpa using he)]

/-- `segment_pop` on a nonempty segment advances `tail` and returns the
oldest element. -/
theorem segmentPop_cons {α : Type} {s : Segment α} (inv : SInv s)
    (hne : s.next_head ≠ s.tail) :
    ∃ v : α,
      segmentPop s
        = ({ s with
               tail := wrapIdx (s.tail + 1) SEGMENT_SIZE
               buff := s.buff.set s.tail { state := READY, value := none } },
           PopRes.popped (some v)) ∧
      SInv (segmentPop s).1 ∧
      s.toList = some v :: (segmentPop s).1.toList := by
  obtain ⟨v, _, hslot, _, _, hinv, hvals⟩ := ring_pop inv (fun he => hne he.symm)
  have hpop : segmentPop s
      = ({ s with
             tail := wrapIdx (s.tail + 1) SEGMENT_SIZE
             buff := s.buff.set s.tail { state := READY, value := none } },
         PopRes.popped (some v)) := by
    unfold segmentPop
    rw [if_pos hne, hslot]
  refine ⟨v, hpop, ?_, ?_⟩
  · rw [hpop]
    exact hinv
  · rw [hpop]
    exact hvals

theorem pushSegs_one_ok {α : Type} {s s₁ : Segment α} {v : α}
    (h : segmentPush s v = (s₁, PushRes.ok)) : pushSegs v [s] = some [s₁] := by
  conv_lhs => unfold pushSegs
  rw [h]

theorem pushSegs_one_full {α : Type} {s s₁ fresh' : Segment α} {v d : α}
    (h : segmentPush s v = (s₁, PushRes.full d))
    (h2 : segmentPush (Segment.new α) d = (fresh', PushRes.ok)) :
    pushSegs v [s] = some [s₁, fresh'] := by
  have e1 : pushSegs v [s] = allocPush s₁ (segmentPush (Segment.new α) d) := by
    conv_lhs => unfold pushSegs
    rw [h]
  rw [e1, h2]
  rfl

theorem pushSegs_cons₂_eq {α : Type} (v : α) (s s₂ : Segment α)
    (rest : List (Segment α)) :
    pushSegs v (s :: s₂ :: rest)
      = (pushSegs v (s₂ :: rest)).map (fun l => s :: l) := rfl

theorem popSegs_nil_eq {α : Type} :
    popSegs ([] : List (Segment α)) = ([], PopRes.empty) := rfl

theorem popSegs_cons_popped {α : Type} {s s₁ : Segment α} {v : Option α}
    (rest : List (Segment α)) (h : segmentPop s = (s₁, PopRes.popped v)) :
    popSegs (s :: rest) = (s₁ :: rest, PopRes.popped v) := by
  conv_lhs => unfold popSegs
  rw [h]

theorem popSegs_one_empty {α : Type} {s s₁ : Segment α}
    (h : segmentPop s = (s₁, PopRes.empty)) :
    popSegs [s] = ([s₁], PopRes.empty) := by
  conv_lhs => unfold popSegs
  rw [h]

theorem popSegs_cons₂_empty {α : Type} {s s₁ : Segment α} (s₂ : Segment α)
    (rest' : List (Segment α)) (h : segmentPop s = (s₁, PopRes.empty)) :
    popSegs (s :: s₂ :: rest') = popSegs (s₂ :: rest') := by
  conv_lhs => unfold popSegs
  rw [h]

/-- The push loop over the chain always succeeds, appends the value to the
queue's contents, and allocates exactly one new segment iff the tail segment
was full. -/
theorem pushSegs_ok {α : Type} (v : α) :
    ∀ segs : List (Segment α), segs ≠ [] → (∀ s ∈ segs, SInv s) →
      ∃ segs', pushSegs v segs = some segs' ∧ segs' ≠ [] ∧
        (∀ s ∈ segs', SInv s) ∧
        (segs'.map Segment.toList).flatten
          = (segs.map Segment.toList).flatten ++ [some v] ∧
        (lastSegFull segs → segs'.length = segs.length + 1) ∧
        (¬ lastSegFull segs → segs'.length = segs.length) := by
  intro segs
  induction segs with
  | nil =>
    intro h
    exact absurd rfl h
  | cons s rest ih =>
    intro _ hinvs
    have hs : SInv s := hinvs s (by simp)
    cases rest with
    | nil =>
      by_cases hf : segFull s
      · have hfull := segmentPush_full s v hf
        obtain ⟨fresh', hp2, hinv2, hvals2⟩ := segmentPush_fresh (α := α) v
        refine ⟨[s, fresh'],
                ?_, by simp, ?_, ?_, ?_, ?_⟩
        · exact pushSegs_one_full hfull hp2
        · intro x hx
          rcases List.mem_cons.mp hx with hx | hx
          · rw [hx]
            exact hs
          · rcases List.mem_cons.mp hx with hx | hx
            · rw [hx]
              exact hinv2
            · exact absurd hx (List.not_mem_nil x)
        · simp only [List.map_cons, List.map_nil, List.flatten_cons,
            List.flatten_nil, List.append_nil]
          rw [hvals2]
        · intro _
          rfl
        · intro hn
          exact absurd hf hn
      · have hnf : s.tail ≠ wrapIdx (s.next_head + 1) SEGMENT_SIZE := hf
        obtain ⟨hpush, hinv1, hvals1⟩ := segmentPush_not_full hs v hnf
        refine ⟨[(segmentPush s v).1],
                ?_, by simp, ?_, ?_, ?_, ?_⟩
        · rw [hpush]
          exact pushSegs_one_ok hpush
        · intro x hx
          rcases List.mem_cons.mp hx with hx | hx
          · rw [hx]
            exact hinv1
          · exact absurd hx (List.not_mem_nil x)
        · simp only [List.map_cons, List.map_nil, List.flatten_cons,
            List.flatten_nil, List.append_nil]
          exact hvals1
        · intro hlf
          exact absurd hlf hf
        · intro _
          rfl
    | cons s₂ rest' =>
      have hinvs2 : ∀ x ∈ s₂ :: rest', SInv x :=
        fun x hx => hinvs x (List.mem_cons_of_mem _ hx)
      obtain ⟨segs'', hps, hne'', hinvs'', hflat, hl1, hl2⟩ :=
        ih (by simp) hinvs2
      refine ⟨s :: segs'', ?_, by simp, ?_, ?_, ?_, ?_⟩
      · rw [pushSegs_cons₂_eq, hps]
        rfl
      · intro x hx
        rcases List.mem_cons.mp hx with hx | hx
        · rw [hx]
          exact hs
        · exact hinvs'' x hx
      · simp only [List.map_cons, List.flatten_cons]
        rw [hflat]
        simp [List.append_assoc]
      · intro hlf
        have hlf' : lastSegFull (s₂ :: rest') := by
          unfold lastSegFull at hlf ⊢
          rwa [List.getLast?_cons_cons] at hlf
        have hlen := hl1 hlf'
        simp only [List.length_cons] at hlen ⊢
        omega
      · intro hlf
        have hlf' : ¬ lastSegFull (s₂ :: rest') := by
          intro hc
          apply hlf
          unfold lastSegFull at hc ⊢
          rwa [List.getLast?_cons_cons]
        have hlen := hl2 hlf'
        simp only [List.length_cons] at hlen ⊢
        omega

/-- The pop loop over the chain: reports `empty` exactly when the queue's
contents are empty, otherwise pops the oldest element; the invariant and
chain non-emptiness are preserved. -/
theorem popSegs_spec {α : Type} :
    ∀ segs : List (Segment α), (∀ s ∈ segs, SInv s) →
      (∀ s ∈ (popSegs segs).1, SInv s) ∧
      (segs ≠ [] → (popSegs segs).1 ≠ []) ∧
      ((segs.map Segment.toList).flatten = [] →
        (popSegs segs).2 = PopRes.empty ∧
        ((popSegs segs).1.map Segment.toList).flatten = []) ∧
      (∀ x l, (segs.map Segment.toList).flatten = x :: l →
        ∃ v, x = some v ∧ (popSegs segs).2 = PopRes.popped (some v) ∧
          ((popSegs segs).1.map Segment.toList).flatten = l) := by
  intro segs
  induction segs with
  | nil =>
    intro _
    refine ⟨by simp [popSegs_nil_eq], by simp, by simp [popSegs_nil_eq], ?_⟩
    intro x l h
    simp at h
  | cons s rest ih =>
    intro hinvs
    have hs : SInv s := hinvs s (by simp)
    by_cases he : s.next_head = s.tail
    · have hemp := segmentPop_empty s he
      have hstl : s.toList = [] := segment_toList_empty s he
      cases rest with
      | nil =>
        have hps : popSegs [s] = ([s], PopRes.empty) := popSegs_one_empty hemp
        rw [hps]
        refine ⟨?_, by simp, ?_, ?_⟩
        · intro x hx
          rcases List.mem_cons.mp hx with hx | hx
          · rw [hx]
            exact hs
          · exact absurd hx (List.not_mem_nil x)
        · intro _
          simp [hstl]
        · intro x l h
          simp [hstl] at h
      | cons s₂ rest' =>
        have hinvs2 : ∀ x ∈ s₂ :: rest', SInv x :=
          fun x hx => hinvs x (List.mem_cons_of_mem _ hx)
        obtain ⟨ihinv, ihne, ihemp, ihcons⟩ := ih hinvs2
        have hps : popSegs (s :: s₂ :: rest') = popSegs (s₂ :: rest') :=
          popSegs_cons₂_empty s₂ rest' hemp
        rw [hps]
        have hfl : ((s :: s₂ :: rest').map Segment.toList).flatten
            = ((s₂ :: rest').map Segment.toList).flatten := by
          simp [hstl]
        rw [hfl]
        exact ⟨ihinv, fun _ => ihne (by simp), ihemp, ihcons⟩
    · obtain ⟨v, hpop, hinv1, hvals1⟩ := segmentPop_cons hs he
      rw [hpop] at hinv1 hvals1
      have hps : popSegs (s :: rest)
          = ({ s with
                 tail := wrapIdx (s.tail + 1) SEGMENT_SIZE
                 buff := s.buff.set s.tail { state := READY, value := none } }
               :: rest,
             PopRes.popped (some v)) := popSegs_cons_popped rest hpop
      rw [hps]
      refine ⟨?_, by simp, ?_, ?_⟩
      · intro x hx
        rcases List.mem_cons.mp hx with hx | hx
        · rw [hx]
          exact hinv1
        · exact hinvs x (List.mem_cons_of_mem _ hx)
      · intro hcontra
        exfalso
        rw [show ((s :: rest).map Segment.toList).flatten
              = s.toList ++ (rest.map Segment.toList).flatten by simp] at hcontra
        rw [hvals1] at hcontra
        simp at hcontra
      · intro x l h
        rw [show ((s :: rest).map Segment.toList).flatten
              = s.toList ++ (rest.map Segment.toList).flatten by simp] at h
        rw [hvals1] at h
        simp only [List.cons_append] at h
        injection h with hx hl
        refine ⟨v, hx.symm, rfl, ?_⟩
        simp only [List.map_cons, List.flatten_cons]
        exact hl

/-- `new()` satisfies the invariant and is empty. -/
theorem uinv_new (α : Type) :
    UInv (RawMpsc.new α) ∧ (RawMpsc.new α).toList = [] := by
  constructor
  · refine ⟨by simp [RawMpsc.new], rfl, ?_⟩
    intro s hs
    rw [List.mem_singleton.mp hs]
    exact (sinv_new α).1
  · unfold RawMpsc.toList RawMpsc.new
    simp [(sinv_new α).2]

/-- Unbounded `push` never fails on an invariant-satisfying state: it returns
`()` (no panic, no rejection), appends the value, preserves the invariant,
and allocates exactly one segment iff the tail segment was full. -/
theorem push_total {α : Type} {q : RawMpsc α} (inv : UInv q) (v : α) :
    ∃ q', q.push v = some q' ∧ UInv q' ∧ q'.toList = q.toList ++ [some v] ∧
      (lastSegFull q.segs → q'.segs.length = q.segs.length + 1) ∧
      (¬ lastSegFull q.segs → q'.segs.length = q.segs.length) := by
  obtain ⟨hne, hflag, hinvs⟩ := inv
  obtain ⟨segs', hps, hne', hinvs', hjoin, hfull1, hfull2⟩ :=
    pushSegs_ok v q.segs hne hinvs
  refine ⟨{ q with segs := segs' }, ?_, ⟨hne', hflag, hinvs'⟩, hjoin, hfull1, hfull2⟩
  unfold RawMpsc.push
  rw [hflag]
  simp only [Bool.false_eq_true, if_false, hps, Option.map_some']

/-- Unbounded `pop` on an invariant-satisfying state: reports `empty` exactly
when the contents are empty, otherwise pops the oldest element; the invariant
is preserved. -/
theorem pop_spec {α : Type} {q : RawMpsc α} (inv : UInv q) :
    UInv (q.pop).1 ∧
    (q.toList = [] → (q.pop).2 = PopRes.empty ∧ (q.pop).1.toList = []) ∧
    (∀ x l, q.toList = x :: l →
      ∃ v, x = some v ∧ (q.pop).2 = PopRes.popped (some v) ∧
        (q.pop).1.toList = l) := by
  obtain ⟨hne, hflag, hinvs⟩ := inv
  obtain ⟨hinv', hne', hemp, hcons⟩ := popSegs_spec q.segs hinvs
  refine ⟨⟨hne' hne, hflag, hinv'⟩, ?_, ?_⟩
  · intro h0
    exact hemp h0
  · intro x l hl
    exact hcons x l hl

/-- Reachable states of the unbounded queue under sequential `push`/`pop`. -/
inductive Reach (α : Type) : RawMpsc α → Prop where
  | init : Reach α (RawMpsc.new α)
  | push (q : RawMpsc α) (v : α) (q' : RawMpsc α) :
      Reach α q → q.push v = some q' → Reach α q'
  | pop (q : RawMpsc α) : Reach α q → Reach α (q.pop).1

/-- The invariant holds in every reachable state. -/
theorem reach_uinv {α : Type} {q : RawMpsc α} (hr : Reach α q) : UInv q := by
  induction hr with
  | init => exact (uinv_new α).1
  | push q v q' _ hp ih =>
    obtain ⟨q'', hq'', hinv'', _, _, _⟩ := push_total ih v
    rw [hp] at hq''
    injection hq'' with he
    rw [he]
    exact hinv''
  | pop q _ ih => exact (pop_spec ih).1

/-- Push a whole list into the unbounded queue (`none` = a panic occurred). -/
def pushList {α : Type} : List α → RawMpsc α → Option (RawMpsc α)
  | [], q => some q
  | v :: l, q =>
    match q.push v with
    | some q' => pushList l q'
    | none => none

/-- Pop `n` times from the unbounded queue, collecting results in order. -/
def pops {α : Type} : Nat → RawMpsc α → RawMpsc α × List (PopRes α)
  | 0, q => (q, [])
  | n + 1, q =>
    let p := q.pop
    let rest := pops n p.1
    (rest.1, p.2 :: rest.2)

theorem pops_succ_u {α : Type} (q : RawMpsc α) (n : Nat) :
    pops (n + 1) q = ((pops n (q.pop).1).1, (q.pop).2 :: (pops n (q.pop).1).2) :=
  rfl

/-- Pushing a list into the unbounded queue always succeeds and appends it. -/
theorem pushList_total {α : Type} :
    ∀ (l : List α) (q : RawMpsc α), UInv q →
      ∃ q', pushList l q = some q' ∧ UInv q' ∧
        q'.toList = q.toList ++ l.map some := by
  intro l
  induction l with
  | nil =>
    intro q inv
    exact ⟨q, rfl, inv, by simp⟩
  | cons v l ih =>
    intro q inv
    obtain ⟨q1, hp, hinv1, hlist1, _, _⟩ := push_total inv v
    obtain ⟨q', hq', hinv', hlist'⟩ := ih q1 hinv1
    refine ⟨q', ?_, hinv', ?_⟩
    · simp only [pushList, hp]
      exact hq'
    · rw [hlist', hlist1]
      simp

/-- Draining the unbounded queue whose contents are `l` with `l.length + 1`
pops returns each element in order as `popped`, then one `empty`. -/
theorem pops_drain_u {α : Type} :
    ∀ (l : List (Option α)) (q : RawMpsc α), UInv q → q.toList = l →
      (pops (l.length + 1) q).2 = l.map PopRes.popped ++ [PopRes.empty] := by
  intro l
  induction l with
  | nil =>
    intro q inv h0
    obtain ⟨hres, _⟩ := (pop_spec inv).2.1 h0
    simp only [List.length_nil, List.map_nil, List.nil_append]
    rw [pops_succ_u, hres]
    rfl
  | cons x l ih =>
    intro q inv hl
    obtain ⟨v, hx, hres, hlist⟩ := (pop_spec inv).2.2 x l hl
    simp only [List.length_cons]
    rw [pops_succ_u, hres]
    simp only [List.map_cons, List.cons_append, hx]
    congr 1
    exact ih (q.pop).1 (pop_spec inv).1 hlist

end Mpsc.Unbounded

namespace Mpsc.Claims

open Mpsc

/-! ## The claims -/

/-- C1: single-threaded FIFO — pushing the values `0..N` in order and then
popping `N + 1` times returns `Some 0, …, Some (N-1)` in order followed by
`None`, both for a bounded queue of any capacity `C ≥ N` (expressible in
`usize`) and for the unbounded queue (for every `N`, including `N` beyond
the 128-slot segment size, where the drain crosses segment boundaries and
reclaims segments). -/
theorem c1_fifo_single_threaded (N C : Nat) (hNC : N ≤ C)
    (hC : C + 1 ≤ 2 ^ USIZE_BITS) :
    (∃ qb, Bounded.pushList (List.range N) (Bounded.RawMpsc.new Nat C) = some qb ∧
       (Bounded.pops (N + 1) qb).2
         = (List.range N).map (fun k => some (some k)) ++ [none]) ∧
    (∃ qu, Unbounded.pushList (List.range N) (Unbounded.RawMpsc.new Nat) = some qu ∧
       (Unbounded.pops (N + 1) qu).2
         = (List.range N).map (fun k => PopRes.popped (some k))
             ++ [PopRes.empty]) := by
  constructor
  · obtain ⟨hbinv, hblist, hblen⟩ := Bounded.binv_new (α := Nat) C hC
    have hfit : (Bounded.RawMpsc.new Nat C).toList.length
        + (List.range N).length + 1 ≤ (Bounded.RawMpsc.new Nat C).slots.length := by
      rw [hblist, hblen]
      simp only [List.length_nil, List.length_range]
      omega
    obtain ⟨qb, hqb, hinv', hlist', _⟩ :=
      Bounded.pushList_ok (List.range N) (Bounded.RawMpsc.new Nat C) hbinv hfit
    have htl : qb.toList = (List.range N).map some := by
      rw [hlist', hblist]
      simp
    have hdrain := Bounded.pops_drain ((List.range N).map some) qb hinv' htl
    refine ⟨qb, hqb, ?_⟩
    simp only [List.length_map, List.length_range, List.map_map,
      Function.comp] at hdrain
    exact hdrain
  · obtain ⟨qu, hqu, hinv', hlist'⟩ :=
      Unbounded.pushList_total (List.range N) (Unbounded.RawMpsc.new Nat)
        (Unbounded.uinv_new Nat).1
    have htl : qu.toList = (List.range N).map some := by
      rw [hlist', (Unbounded.uinv_new Nat).2]
      simp
    have hdrain := Unbounded.pops_drain_u ((List.range N).map some) qu hinv' htl
    refine ⟨qu, hqu, ?_⟩
    simp only [List.length_map, List.length_range, List.map_map,
      Function.comp] at hdrain
    exact hdrain

theorem c1_fifo_single_threaded_witness :
    (∃ qb, Bounded.pushList (List.range 3) (Bounded.RawMpsc.new Nat 3) = some qb ∧
       (Bounded.pops (3 + 1) qb).2
         = (List.range 3).map (fun k => some (some k)) ++ [none]) ∧
    (∃ qu, Unbounded.pushList (List.range 3) (Unbounded.RawMpsc.new Nat) = some qu ∧
       (Unbounded.pops (3 + 1) qu).2
         = (List.range 3).map (fun k => PopRes.popped (some k))
             ++ [PopRes.empty]) :=
  c1_fifo_single_threaded 3 3 (by decide) (by decide)

/-- The concrete capacity-4 scenario, evaluated on the embedding. -/
theorem bounded_capacity4_scenario :
    ∃ q4, Bounded.pushList [0, 1, 2, 3] (Bounded.RawMpsc.new Nat 4) = some q4 ∧
      (q4.push 4).2 = PushRes.full 4 ∧ (q4.push 4).1 = q4 ∧
      ∃ q5, q4.pop = (q5, some (some 0)) ∧
      ∃ q6, q5.push 4 = (q6, PushRes.ok) ∧
        (Bounded.pops 5 q6).2
          = [some (some 1), some (some 2), some (some 3), some (some 4),
             none] := by
  refine ⟨(Bounded.pushList [0, 1, 2, 3] (Bounded.RawMpsc.new Nat 4)).getD
      (Bounded.RawMpsc.new Nat 4),
    by decide, by decide, by decide,
    ((Bounded.pushList [0, 1, 2, 3] (Bounded.RawMpsc.new Nat 4)).getD
      (Bounded.RawMpsc.new Nat 4)).pop.1,
    by decide,
    ((((Bounded.pushList [0, 1, 2, 3] (Bounded.RawMpsc.new Nat 4)).getD
      (Bounded.RawMpsc.new Nat 4)).pop.1).push 4).1,
    by decide, by decide⟩

/-- C2 (counterexample): the claim quantifies over every capacity `C`, but at
`C = 0` its clause "after one pop exactly one more push succeeds" is false:
on the capacity-0 queue the pop returns `None` and the following push still
fails with `Err`. -/
theorem c2_capacity_bound_counterexample :
    ((Bounded.RawMpsc.new Nat 0).push 5).2 = PushRes.full 5 ∧
    (Bounded.RawMpsc.new Nat 0).pop = (Bounded.RawMpsc.new Nat 0, none) ∧
    (((Bounded.RawMpsc.new Nat 0).pop).1.push 7).2 = PushRes.full 7 := by
  decide

/-- C2 (amended: for capacity `C ≥ 1`): after `C` successful pushes with no
pops the next push fails returning the value and leaves the state unchanged;
after one pop exactly one more push succeeds (and the push after that fails
again). The concrete capacity-4 scenario of the claim holds as stated:
push 0,1,2,3 all `Ok`; push 4 `Err(4)` leaving the state unchanged; pop
`Some 0`; push 4 `Ok`; four pops `Some 1, Some 2, Some 3, Some 4`; next pop
`None`. -/
theorem c2_capacity_bound (C : Nat) (hC1 : 1 ≤ C) (hC : C + 1 ≤ 2 ^ USIZE_BITS)
    (l : List Nat) (hl : l.length = C) (x y z : Nat) :
    (∃ q1, Bounded.pushList l (Bounded.RawMpsc.new Nat C) = some q1 ∧
      q1.push x = (q1, PushRes.full x) ∧
      ∃ q2 v, q1.pop = (q2, some (some v)) ∧
      ∃ q3, q2.push y = (q3, PushRes.ok) ∧
        (q3.push z).2 = PushRes.full z) ∧
    (∃ q4, Bounded.pushList [0, 1, 2, 3] (Bounded.RawMpsc.new Nat 4) = some q4 ∧
      (q4.push 4).2 = PushRes.full 4 ∧ (q4.push 4).1 = q4 ∧
      ∃ q5, q4.pop = (q5, some (some 0)) ∧
      ∃ q6, q5.push 4 = (q6, PushRes.ok) ∧
        (Bounded.pops 5 q6).2
          = [some (some 1), some (some 2), some (some 3), some (some 4),
             none]) := by
  constructor
  · obtain ⟨hbinv, hblist, hblen⟩ := Bounded.binv_new (α := Nat) C hC
    have hfit : (Bounded.RawMpsc.new Nat C).toList.length + l.length + 1
        ≤ (Bounded.RawMpsc.new Nat C).slots.length := by
      rw [hblist, hblen, hl]
      simp
    obtain ⟨q1, hq1, hinv1, hlist1, hlen1⟩ :=
      Bounded.pushList_ok l (Bounded.RawMpsc.new Nat C) hbinv hfit
    have hLen1 : q1.toList.length = C := by
      rw [hlist1, hblist]
      simp [hl]
    have hcap1 : q1.slots.length = C + 1 := by
      rw [hlen1, hblen]
    have hwd1 := Bounded.toList_length q1
    have hfull1 : wrapIdx (q1.next_head + 1) q1.slots.length = q1.tail := by
      apply (ring_full_iff hinv1).mpr
      omega
    have hpx := Bounded.push_full_state q1 x hfull1
    have hne1 : q1.tail ≠ q1.next_head := by
      intro he
      have h0 := (wdist_eq_zero_iff hinv1).mpr he
      omega
    obtain ⟨v, hpop, hinv2, hlist2, hlen2, _⟩ := Bounded.pop_cons hinv1 hne1
    have hwd2 := Bounded.toList_length (q1.pop).1
    have hLen2 : (q1.pop).1.toList.length = C - 1 := by
      have := congrArg List.length hlist2
      simp only [List.length_cons] at this
      omega
    have hcap2 : (q1.pop).1.slots.length = C + 1 := by
      rw [hlen2, hcap1]
    have hnf2 : wrapIdx ((q1.pop).1.next_head + 1) (q1.pop).1.slots.length
        ≠ (q1.pop).1.tail := by
      intro hf
      have hw := (ring_full_iff hinv2).mp hf
      omega
    obtain ⟨hres3, hinv3, hlist3, hlen3, _, _, _⟩ :=
      Bounded.push_not_full hinv2 y hnf2
    have hwd3 := Bounded.toList_length ((q1.pop).1.push y).1
    have hLen3 : ((q1.pop).1.push y).1.toList.length = C := by
      rw [hlist3]
      simp only [List.length_append, List.length_cons, List.length_nil]
      omega
    have hcap3 : ((q1.pop).1.push y).1.slots.length = C + 1 := by
      rw [hlen3, hcap2]
    have hfull3 : wrapIdx (((q1.pop).1.push y).1.next_head + 1)
        ((q1.pop).1.push y).1.slots.length = ((q1.pop).1.push y).1.tail := by
      apply (ring_full_iff hinv3).mpr
      omega
    refine ⟨q1, hq1, hpx, (q1.pop).1, v, by rw [hpop], ((q1.pop).1.push y).1,
      by rw [← hres3], ?_⟩
    rw [Bounded.push_full_state _ z hfull3]
  · exact bounded_capacity4_scenario

theorem c2_capacity_bound_witness :
    (∃ q1, Bounded.pushList [10, 20, 30, 40] (Bounded.RawMpsc.new Nat 4)
        = some q1 ∧
      q1.push 1 = (q1, PushRes.full 1) ∧
      ∃ q2 v, q1.pop = (q2, some (some v)) ∧
      ∃ q3, q2.push 2 = (q3, PushRes.ok) ∧
        (q3.push 3).2 = PushRes.full 3) ∧
    (∃ q4, Bounded.pushList [0, 1, 2, 3] (Bounded.RawMpsc.new Nat 4) = some q4 ∧
      (q4.push 4).2 = PushRes.full 4 ∧ (q4.push 4).1 = q4 ∧
      ∃ q5, q4.pop = (q5, some (some 0)) ∧
      ∃ q6, q5.push 4 = (q6, PushRes.ok) ∧
        (Bounded.pops 5 q6).2
          = [some (some 1), some (some 2), some (some 3), some (some 4),
             none]) :=
  c2_capacity_bound 4 (by decide) (by decide) [10, 20, 30, 40] (by decide) 1 2 3

/-- C3 (code bug): after `new(4)` and one `push(0)` the live region is
exactly slot 0 (`tail = 0`, `next_head = 1`, slot 0 `REGISTERED` holding the
value) — yet after the `Drop` drain loop runs, slot 0 is *still*
`REGISTERED` and still holds its value. The loop starts `curr` at
`next_head` and walks forward to `tail`, i.e. over the *empty* slots, so the
live value is never released, contradicting the claim (and the code's own
documentation "Any items that have not been consumed are dropped here"). -/
theorem c3_drop_walks_wrong_region :
    ((((Bounded.RawMpsc.new Nat 4).push 0).1.tail = 0 ∧
      ((Bounded.RawMpsc.new Nat 4).push 0).1.next_head = 1) ∧
     ((Bounded.RawMpsc.new Nat 4).push 0).1.slots.getD 0 dSlot
       = { state := REGISTERED, value := some 0 }) ∧
    (((Bounded.RawMpsc.new Nat 4).push 0).1.dropDrain.getD 0 dSlot
       = { state := REGISTERED, value := some 0 }) := by
  decide

/-- C4: unbounded `push` is total — for every value and every reachable
state it terminates without panicking or rejecting the value (it returns
`()` in Rust; here the new state), appends the value to the queue's
contents, and when the tail segment is full it allocates and links exactly
one new segment (and otherwise allocates none). -/
theorem c4_unbounded_push_total {α : Type} (q : Unbounded.RawMpsc α) (v : α)
    (hr : Unbounded.Reach α q) :
    ∃ q', q.push v = some q' ∧ q'.toList = q.toList ++ [some v] ∧
      (Unbounded.lastSegFull q.segs → q'.segs.length = q.segs.length + 1) ∧
      (¬ Unbounded.lastSegFull q.segs → q'.segs.length = q.segs.length) := by
  obtain ⟨q', h1, _, h3, h4, h5⟩ :=
    Unbounded.push_total (Unbounded.reach_uinv hr) v
  exact ⟨q', h1, h3, h4, h5⟩

theorem c4_unbounded_push_total_witness :
    ∃ q', (Unbounded.RawMpsc.new Nat).push 5 = some q' ∧
      q'.toList = (Unbounded.RawMpsc.new Nat).toList ++ [some 5] ∧
      (Unbounded.lastSegFull (Unbounded.RawMpsc.new Nat).segs →
        q'.segs.length = (Unbounded.RawMpsc.new Nat).segs.length + 1) ∧
      (¬ Unbounded.lastSegFull (Unbounded.RawMpsc.new Nat).segs →
        q'.segs.length = (Unbounded.RawMpsc.new Nat).segs.length) :=
  c4_unbounded_push_total (Unbounded.RawMpsc.new Nat) 5 Unbounded.Reach.init

/-- C5: for a bounded queue of capacity `C` (expressible in `usize`), in
every state reachable from `new(C)` by any sequence of pushes and pops, both
`next_head` and `tail` lie in `[0, C]` (strictly below the `C + 1` slot
array length), and `pop` returns `None` if and only if
`next_head = tail`. -/
theorem c5_bounded_cursor_invariant {α : Type} (C : Nat)
    (hC : C + 1 ≤ 2 ^ USIZE_BITS) (q : Bounded.RawMpsc α)
    (hr : Bounded.Reach α C q) :
    q.next_head ≤ C ∧ q.tail ≤ C ∧
    ((q.pop).2 = none ↔ q.next_head = q.tail) := by
  have hinv := Bounded.reach_binv hC hr
  have hlen := Bounded.reach_len hr
  have h1 := hinv.hlt
  have h2 := hinv.tlt
  rw [hlen] at h1 h2
  exact ⟨by omega, by omega, Bounded.pop_none_iff hinv⟩

theorem c5_bounded_cursor_invariant_witness :
    (Bounded.RawMpsc.new Nat 2).next_head ≤ 2 ∧
    (Bounded.RawMpsc.new Nat 2).tail ≤ 2 ∧
    (((Bounded.RawMpsc.new Nat 2).pop).2 = none ↔
      (Bounded.RawMpsc.new Nat 2).next_head = (Bounded.RawMpsc.new Nat 2).tail) :=
  c5_bounded_cursor_invariant 2 (by decide) (Bounded.RawMpsc.new Nat 2)
    Bounded.Reach.init

/-- C6: `Slot::set(data)` succeeds exactly when the slot's state is `READY`,
leaving the slot `REGISTERED` with the data stored, and otherwise returns
`Err(data)` (the same value handed back) with the slot unchanged;
`Slot::unset()` succeeds exactly when the state is `REGISTERED`, returning
the stored value and leaving the state `READY`, and otherwise returns
`Err(())` with the slot unchanged. -/
theorem c6_slot_state_machine {α : Type} (s : Slot α) (d : α) :
    (s.state = READY →
      s.set d = ({ state := REGISTERED, value := some d }, Except.ok ())) ∧
    (s.state ≠ READY → s.set d = (s, Except.error d)) ∧
    (s.state = REGISTERED →
      s.unset = ({ state := READY, value := none }, Except.ok s.value)) ∧
    (s.state ≠ REGISTERED → s.unset = (s, Except.error ())) := by
  unfold Slot.set Slot.unset
  exact ⟨fun h => by rw [if_pos h], fun h => by rw [if_neg h],
         fun h => by rw [if_pos h], fun h => by rw [if_neg h]⟩

theorem c6_slot_state_machine_witness :
    (Slot.set { state := READY, value := (none : Option Nat) } 5
       = ({ state := REGISTERED, value := some 5 }, Except.ok ())) ∧
    (Slot.unset { state := REGISTERED, value := some (7 : Nat) }
       = ({ state := READY, value := none }, Except.ok (some 7))) :=
  ⟨(c6_slot_state_machine { state := READY, value := none } 5).1 (by decide),
   (c6_slot_state_machine { state := REGISTERED, value := some 7 } 7).2.2.1
     (by decide)⟩

/-- C7: whenever the bounded `push` returns `Err(v)`, `v` is exactly the
value that was passed in and the queue state (cursors, slots, and the backoff
counter) is exactly as before the call — for every state, reachable or not. -/
theorem c7_push_full_lossless {α : Type} (q : Bounded.RawMpsc α) (v d : α)
    (q' : Bounded.RawMpsc α) (h : q.push v = (q', PushRes.full d)) :
    d = v ∧ q' = q := by
  unfold Bounded.RawMpsc.push at h
  by_cases hc : wrapIdx (q.next_head + 1) q.slots.length ≠ q.tail
  · rw [if_pos hc] at h
    rcases hp : SlotArr.set q.slots q.next_head v with ⟨slots', r⟩
    rw [hp] at h
    cases r with
    | ok u =>
      injection h with h1 h2
      exact absurd h2 (by simp)
    | error u =>
      injection h with h1 h2
      exact absurd h2 (by simp)
  · rw [if_neg hc] at h
    injection h with h1 h2
    injection h2 with h3
    refine ⟨h3.symm, ?_⟩
    rw [← h1]
    rfl

theorem c7_push_full_lossless_witness :
    (7 : Nat) = 7 ∧
    ((Bounded.RawMpsc.new Nat 0).push 7).1 = Bounded.RawMpsc.new Nat 0 :=
  c7_push_full_lossless (Bounded.RawMpsc.new Nat 0) 7 7
    ((Bounded.RawMpsc.new Nat 0).push 7).1 (by decide)

/-- C8: the branchless wraparound mask is equivalent to modulo on the indices
the queues feed it: for a bounded queue of capacity `C` and any cursor
`i ≤ C`, the masked increment equals `(i+1) % (C+1)`, and for a segment
cursor `j ≤ 127` it equals `(j+1) % 128`. -/
theorem c8_wrap_mask_eq_mod (C i j : Nat) (hC : C + 1 ≤ 2 ^ USIZE_BITS)
    (hi : i ≤ C) (hj : j ≤ 127) :
    wrapIdx (i + 1) (C + 1) = (i + 1) % (C + 1) ∧
    wrapIdx (j + 1) Unbounded.SEGMENT_SIZE = (j + 1) % 128 := by
  constructor
  · exact wrapIdx_eq_mod (by omega) hC
  · exact wrapIdx_eq_mod (by show j + 1 ≤ 128; omega) (by decide)

theorem c8_wrap_mask_eq_mod_witness :
    (wrapIdx (5 + 1) (5 + 1) = (5 + 1) % (5 + 1) ∧
     wrapIdx (127 + 1) Unbounded.SEGMENT_SIZE = (127 + 1) % 128) :=
  c8_wrap_mask_eq_mod 5 5 127 (by decide) (by decide) (by decide)

/-- C9 (counterexample): at `active_threads = 27` the code's `u32` shift
`32u32 << 27` wraps to `0`, so `wait()` performs `0` spin iterations, while
the exact (unbounded) arithmetic formula `min(32 << 27, 2^18)` gives
`2^18` — the claim's "computed as exact integer arithmetic" fails. -/
theorem c9_wait_spin_counterexample :
    GlobalBackoff.waitIters 27 = some 0 ∧
    min (MIN_WAIT_SPIN * 2 ^ 27) MAX_WAIT_SPIN = MAX_WAIT_SPIN ∧
    (0 : Nat) ≠ MAX_WAIT_SPIN := by decide

/-- C9 (amended): for every counter value `n ≤ 26` — the whole range where
the `u32` shift does not overflow — `wait()` performs exactly
`min(MIN_WAIT_SPIN * 2^n, MAX_WAIT_SPIN)` spin iterations; for
`27 ≤ n ≤ 31` the wrapped shift yields `0` iterations, and for `n ≥ 32` the
shift amount is out of range (a panic in checked builds). -/
theorem c9_wait_spin_formula :
    (∀ n, n ≤ 26 →
      GlobalBackoff.waitIters n = some (min (MIN_WAIT_SPIN * 2 ^ n) MAX_WAIT_SPIN)) ∧
    (∀ n, 27 ≤ n → n ≤ 31 → GlobalBackoff.waitIters n = some 0) ∧
    (∀ n, 32 ≤ n → GlobalBackoff.waitIters n = none) := by
  refine ⟨by decide, by decide, ?_⟩
  intro n hn
  unfold GlobalBackoff.waitIters u32Shl
  rw [if_neg (by omega)]
  rfl

theorem c9_wait_spin_formula_witness :
    GlobalBackoff.waitIters 5
      = some (min (MIN_WAIT_SPIN * 2 ^ 5) MAX_WAIT_SPIN) :=
  c9_wait_spin_formula.1 5 (by decide)

/-- C10: a fresh `LocalBackoff` starts at spin count 0; `wait()` stores
`min(current * 2, 2^16)` as the next count and spins for the current count,
so every `wait()` on a fresh instance (with no `reset()`) performs zero
iterations forever; `reset()` sets the count to 1, after which the counts
grow 1, 2, 4, … — hence the per-call `LocalBackoff` created inside the
unbounded queue's `segment_push` never delays. -/
theorem c10_local_backoff (b : LocalBackoff) (k : Nat) (hb : b.spins ≤ MAX_SPIN) :
    LocalBackoff.new.spins = 0 ∧
    b.wait = ({ spins := min (b.spins * 2) MAX_SPIN }, b.spins) ∧
    LocalBackoff.waitN k LocalBackoff.new = (LocalBackoff.new, List.replicate k 0) ∧
    b.reset = { spins := 1 } ∧
    (LocalBackoff.waitN 5 { spins := 1 }).2 = [1, 2, 4, 8, 16] := by
  refine ⟨rfl, ?_, ?_, rfl, by decide⟩
  · unfold LocalBackoff.wait
    have h1 : b.spins <<< 1 = b.spins * 2 := by
      rw [Nat.shiftLeft_eq]
    have h2 : (b.spins * 2) % 2 ^ 32 = b.spins * 2 := by
      apply Nat.mod_eq_of_lt
      have : MAX_SPIN * 2 < 2 ^ 32 := by decide
      omega
    rw [h1, h2]
  · induction k with
    | zero => rfl
    | succ k ih =>
      have hstep : LocalBackoff.waitN (k + 1) LocalBackoff.new
          = ((LocalBackoff.waitN k LocalBackoff.new.wait.1).1,
             LocalBackoff.new.wait.2
               :: (LocalBackoff.waitN k LocalBackoff.new.wait.1).2) := rfl
      have hw : LocalBackoff.new.wait = (LocalBackoff.new, 0) := rfl
      rw [hstep, hw, ih]
      rfl

theorem c10_local_backoff_witness :
    LocalBackoff.new.spins = 0 ∧
    LocalBackoff.wait { spins := 3 } = ({ spins := min (3 * 2) MAX_SPIN }, 3) ∧
    LocalBackoff.waitN 4 LocalBackoff.new
      = (LocalBackoff.new, List.replicate 4 0) ∧
    LocalBackoff.reset { spins := 3 } = { spins := 1 } ∧
    (LocalBackoff.waitN 5 { spins := 1 }).2 = [1, 2, 4, 8, 16] := by
  have h := c10_local_backoff { spins := 3 } 4 (by decide)
  exact h

end Mpsc.Claims

-- sanity checks while developing
example : (Mpsc.Bounded.RawMpsc.new Nat 2).slots.length = 3 := by rfl
example :
    (((Mpsc.Bounded.RawMpsc.new Nat 2).push 7).1.pop).2 = some (some 7) := by
  decide
example : ((Mpsc.Bounded.RawMpsc.new Nat 0).push 5).2 = Mpsc.PushRes.full 5 := by
  decide
example :
    (((Mpsc.Unbounded.RawMpsc.new Nat).push 3).map
        (fun q => ((q.push 4).map (fun q' => q'.pop.2)))) =
      some (some (Mpsc.PopRes.popped (some 3))) := by decide
